import Mathlib

/-!
Verification of the curation pipeline of `scripts/generate_briefing.py`
(Biotech-Briefing-Agent): candidate collection, URL deduplication, article
fetch with failure classification, deterministic scoring, and Top-N selection
with per-source caps and the topical-paper guarantee.

Texts are modelled as `List Char` (Python strings), timestamps as integer
seconds, the ambient clock `now_utc()` as an explicit `now : Int` argument,
and the network as explicit oracle data, so that every function is a pure,
executable Lean definition mirroring the Python source line by line.
-/

namespace Briefing

/-! Configuration constants (lines 30-36 of the source). -/

def WINDOW_HOURS : Int := 48

def MAX_ITEMS : Nat := 5

def MAX_PER_SOURCE : Nat := 2

def REQUIRE_AT_LEAST_ONE_PAPER : Bool := true

def MIN_ARTICLE_CHARS : Nat := 800

def MAX_ARTICLE_CHARS : Nat := 12000

/-! Text helpers: Python `str.lower`, `str.strip` and the `in` substring test. -/

/-- Python `s.lower()`, characterwise. -/
def lowerL (s : List Char) : List Char := s.map Char.toLower

/-- Python `s.strip()`: whitespace removed from both ends. -/
def stripL (s : List Char) : List Char :=
  (((s.dropWhile Char.isWhitespace).reverse).dropWhile Char.isWhitespace).reverse

/-- Does `s` start with `pat`? -/
def beginsWith : List Char → List Char → Bool
  | [], _ => true
  | _ :: _, [] => false
  | p :: ps, c :: cs => p == c && beginsWith ps cs

/-- Python `pat in s`: substring containment. -/
def containsSub (pat : List Char) : List Char → Bool
  | [] => beginsWith pat []
  | s@(_ :: cs) => beginsWith pat s || containsSub pat cs

/-! Keyword and domain tables (lines 76-79 and 213-231 of the source). -/

def LOW_VALUE_JOURNAL_NOTICES : List (List Char) :=
  ["correction", "erratum", "corrigendum", "retraction",
   "expression of concern", "publisher correction"].map String.toList

def KEYWORDS_HIGH : List (List Char) :=
  ["gene therapy", "cell therapy", "car-t", "aav",
   "crispr", "base editing", "prime editing", "in vivo",
   "rna", "mrna", "lnp", "oligonucleotide", "si rna", "as o"].map String.toList

def KEYWORDS_CLINICAL : List (List Char) :=
  ["clinical trial", "phase i", "phase ii", "phase iii",
   "first-in-human", "patients", "clinical hold", "fda", "ema"].map String.toList

def HIGH_VALUE_DOMAINS : List (List Char) :=
  ["nature.com", "cell.com", "nejm.org", "science.org",
   "ema.europa.eu", "fda.gov", "biorxiv.org", "medrxiv.org"].map String.toList

def NEGATIVE_KEYWORDS : List (List Char) :=
  ["price target", "earnings", "stock", "shares", "downgrade", "upgrade"].map String.toList

/-- `is_low_value_notice` (lines 81-83): the stripped, lowercased title
contains one of the journal-administrative markers. -/
def is_low_value_notice (title : List Char) : Bool :=
  let t := lowerL (stripL title)
  LOW_VALUE_JOURNAL_NOTICES.any (fun k => containsSub k t)

/-- `detect_kind` (lines 85-99): content kind from URL patterns; the
`source_name` argument is unused in the source as well. -/
def detect_kind (url : List Char) (_source_name : String) : String :=
  let u := lowerL url
  if containsSub ("biorxiv.org".toList) u || containsSub ("medrxiv".toList) u then "preprint"
  else if (["cell.com", "nature.com", "science.org", "nejm.org", "rupress.org",
            "plos.org", "tctjournal.org"].map String.toList).any
            (fun d => containsSub d u) then "paper"
  else if containsSub ("fda.gov".toList) u || containsSub ("ema.europa.eu".toList) u then
    "regulator"
  else if containsSub ("clinicaltrials.gov".toList) u then "trial_registry"
  else if (["ir.", "/investors", "/press", "/newsroom"].map String.toList).any
            (fun x => containsSub x u) then "company"
  else "news"

/-- `is_paper_like` (lines 101-102). -/
def is_paper_like (kind : String) : Bool := kind == "paper" || kind == "preprint"

/-- `is_topical` (lines 233-236). -/
def is_topical (title text : List Char) : Bool :=
  let t := lowerL title
  let b := lowerL text
  (KEYWORDS_HIGH ++ KEYWORDS_CLINICAL).any (fun k => containsSub k t || containsSub k b)

/-! Time helpers (lines 60-67). `now_utc()` reads the ambient wall clock; it
is modelled as an explicit `now : Int` (seconds) argument. -/

/-- `within_window` (lines 63-64): seconds between `now` and `published`
at most `WINDOW_HOURS` hours. -/
def within_window (published now : Int) : Bool :=
  now - published ≤ WINDOW_HOURS * 3600

/-- `hours_old` (lines 66-67): age in hours as an exact rational. -/
def hours_old (published now : Int) : ℚ :=
  ((now - published : Int) : ℚ) / 3600

/-! Candidates and scoring. -/

/-- A candidate dict as built by `collect_rss_items` / `tavily_search`. -/
structure Cand where
  title : List Char
  url : List Char
  published : Int
  source : String
  source_type : String
deriving DecidableEq

/-- `score_item` (lines 238-270): additive score of a candidate plus its
fetched text, evaluated at wall-clock instant `now`. -/
def score_item (item : Cand) (text : List Char) (now : Int) : Int :=
  let title := lowerL item.title
  let body := lowerL text
  let url := lowerL item.url
  let s1 : Int := KEYWORDS_HIGH.foldl
    (fun acc kw => if containsSub kw title || containsSub kw body then acc + 3 else acc) 0
  let s2 : Int := KEYWORDS_CLINICAL.foldl
    (fun acc kw => if containsSub kw title || containsSub kw body then acc + 2 else acc) s1
  let s3 : Int := if HIGH_VALUE_DOMAINS.any (fun dom => containsSub dom url) then s2 + 3 else s2
  let age : ℚ := hours_old item.published now
  let s4 : Int := if age < 12 then s3 + 2 else if age < 24 then s3 + 1 else s3
  let s5 : Int := if NEGATIVE_KEYWORDS.any (fun kw => containsSub kw title) then s4 - 3 else s4
  if is_low_value_notice item.title then s5 - 20 else s5

/-! Article fetch (lines 108-121). The network is modelled as an explicit
outcome: either the `try` block raises (any step throws, caught by the
`except` clause), or `trafilatura.fetch_url` and `trafilatura.extract`
return their values (`none` models Python `None`, and an empty text is falsy
exactly as in `if not downloaded` / `if not text`). -/

/-- Outcome of the network and extraction steps for one URL. -/
inductive FetchWorld where
  | raises (kind : String)
  | net (downloaded : Option (List Char)) (extracted : Option (List Char))
deriving DecidableEq

/-- Python falsiness of an optional string: `None` or empty. -/
def optFalsy : Option (List Char) → Bool
  | none => true
  | some s => s.isEmpty

/-- `fetch_article_text` (lines 108-121): returns `(text, drop_reason)`. -/
def fetch_article_text : FetchWorld → Option (List Char) × Option String
  | .raises k => (none, some ("exception:" ++ k))
  | .net d e =>
    if optFalsy d then (none, some "fetch_failed")
    else
      match e with
      | none => (none, some "extract_failed")
      | some text =>
        if text.isEmpty then (none, some "extract_failed")
        else if text.length < MIN_ARTICLE_CHARS then (none, some "text_too_short_or_teaser")
        else (some (text.take MAX_ARTICLE_CHARS), none)

/-! Enriched items (the dicts built in `main`, lines 433-446). The unused
bookkeeping fields (`age_hours`, `verified_date`) play no part in scoring or
selection and are omitted. -/

/-- The `source` sub-dict of an enriched item. -/
structure SourceInfo where
  name : String
  url : List Char
deriving DecidableEq

/-- An enriched item as built in step 4 of `main`. -/
structure Item where
  headline : List Char
  text : List Char
  score : Int
  kind : String
  topical : Bool
  low_value_notice : Bool
  source : SourceInfo
deriving DecidableEq

/-- One iteration of the fetch-and-score loop (lines 420-447): `none` when the
candidate is dropped (falsy fetched text), `some` of the enriched item
otherwise. `world` gives each candidate its fetch outcome. -/
def enrich_one (world : Cand → FetchWorld) (now : Int) (c : Cand) : Option Item :=
  match fetch_article_text (world c) with
  | (none, _) => none
  | (some text, _) =>
    if text.isEmpty then none
    else
      some { headline := c.title
             text := text
             score := score_item c text now
             kind := detect_kind c.url c.source
             topical := is_topical c.title text
             low_value_notice := is_low_value_notice c.title
             source := { name := c.source, url := c.url } }

/-- The whole fetch-and-score loop over the deduplicated candidates. -/
def enrich (world : Cand → FetchWorld) (now : Int) (cs : List Cand) : List Item :=
  cs.filterMap (enrich_one world now)

/-! URL deduplication (step 3 of `main`, lines 406-414). -/

/-- The dedup loop with its `seen` set of URLs. -/
def dedup_go : List Cand → List (List Char) → List Cand
  | [], _ => []
  | c :: rest, seen =>
    if c.url.isEmpty || seen.contains c.url then dedup_go rest seen
    else c :: dedup_go rest (c.url :: seen)

/-- Deduplication of the merged candidate list, `seen` starting empty. -/
def dedup (cs : List Cand) : List Cand := dedup_go cs []

/-! Candidate collection (lines 134-165 and 171-207). Feed parsing and the
HTTP search call are external; their parsed results are the inputs here. -/

/-- A feedparser entry: optional parsed publication and update times
(`none` models a missing or falsy `*_parsed` attribute). -/
structure RssEntry where
  title : List Char
  link : List Char
  published_parsed : Option Int
  updated_parsed : Option Int
deriving DecidableEq

/-- `parse_date` (lines 69-74): published time, else updated time, else none. -/
def parse_date (e : RssEntry) : Option Int :=
  match e.published_parsed with
  | some t => some t
  | none => e.updated_parsed

/-- The inner loop of `collect_rss_items` (lines 143-155) for one feed. -/
def collect_feed (now : Int) (source_name : String) (entries : List RssEntry) : List Cand :=
  entries.filterMap (fun e =>
    match parse_date e with
    | none => none
    | some published =>
      if within_window published now then
        some { title := e.title, url := e.link, published := published,
               source := source_name, source_type := "rss" }
      else none)

/-- `collect_rss_items` (lines 134-165) over all feeds, each a
`(feed title, entries)` pair. -/
def collect_rss_items (now : Int) (feeds : List (String × List RssEntry)) : List Cand :=
  feeds.foldl (fun acc f => acc ++ collect_feed now f.1 f.2) []

/-- One Tavily search result: the raw `published_date` string when present,
and the optional `source` field. -/
structure TavilyResult where
  title : List Char
  url : List Char
  published_date : Option String
  source : Option String
deriving DecidableEq

/-- The result filter of `tavily_search` (lines 189-207). `iso` is
`datetime.fromisoformat`, `none` modelling its exception. -/
def tavily_filter (now : Int) (iso : String → Option Int) (results : List TavilyResult) :
    List Cand :=
  results.filterMap (fun r =>
    match r.published_date with
    | none => none
    | some raw =>
      if raw.isEmpty then none
      else
        match iso raw with
        | none => none
        | some published =>
          if within_window published now then
            some { title := r.title, url := r.url, published := published,
                   source := r.source.getD "search", source_type := "search" }
          else none)

/-! Selection (lines 276-333): stable sort by score descending, greedy pass
under the per-source cap, then the topical-paper guarantee. -/

/-- Descending-score order: `a` may come before `b` when `b.score ≤ a.score`.
Mathlib's `insertionSort` with this relation keeps the original relative
order of equal scores, exactly like Python's stable `sorted(reverse=True)`. -/
def scoreGE (a b : Item) : Prop := b.score ≤ a.score

/-- Ascending-score order, for `sorted(pool, key=score)` (line 318). -/
def scoreLE (a b : Item) : Prop := a.score ≤ b.score

instance : DecidableRel scoreGE := fun a b => inferInstanceAs (Decidable (b.score ≤ a.score))

instance : DecidableRel scoreLE := fun a b => inferInstanceAs (Decidable (a.score ≤ b.score))

instance : IsTotal Item scoreGE := ⟨fun a b => (le_total b.score a.score).symm.symm⟩

instance : IsTrans Item scoreGE := ⟨fun _ _ _ h₁ h₂ => le_trans h₂ h₁⟩

instance : IsTotal Item scoreLE := ⟨fun a b => le_total a.score b.score⟩

instance : IsTrans Item scoreLE := ⟨fun _ _ _ h₁ h₂ => le_trans h₁ h₂⟩

/-- `sorted(enriched, key=score, reverse=True)` (line 277, line 325). -/
def sortDesc (l : List Item) : List Item := List.insertionSort scoreGE l

/-- `sorted(pool, key=score)` (line 318). -/
def sortAsc (l : List Item) : List Item := List.insertionSort scoreLE l

/-- The number of items of source `s` in a list (the quantity the
`per_source` dict tracks). -/
def countSource (l : List Item) (s : String) : Nat :=
  l.countP (fun it => it.source.name == s)

/-- The triple condition of the paper guarantee (lines 294-297):
paper-like kind, topical, and not a low-value notice. -/
def qualifies (it : Item) : Bool :=
  is_paper_like it.kind && it.topical && !it.low_value_notice

/-- The greedy first pass (lines 283-290): accept items in sorted order,
skipping sources at the cap, stopping at `MAX_ITEMS`. Carries the growing
`selected` list and the `per_source` counts (`per s` defaults to 0). -/
def greedyGo : List Item → List Item → (String → Nat) → List Item × (String → Nat)
  | [], sel, per => (sel, per)
  | it :: rest, sel, per =>
    if MAX_PER_SOURCE ≤ per it.source.name then
      greedyGo rest sel per
    else
      let sel' := sel ++ [it]
      let per' := fun s => if s = it.source.name then per s + 1 else per s
      if MAX_ITEMS ≤ sel'.length then (sel', per') else greedyGo rest sel' per'

/-- The first pass applied to the sorted enriched list. -/
def first_pass (enriched : List Item) : List Item × (String → Nat) :=
  greedyGo (sortDesc enriched) [] (fun _ => 0)

/-- The `best_paper` search (lines 300-312): first item of the sorted list
that is paper-like, topical, not a notice, and whose source is under the cap. -/
def findBestPaper : List Item → (String → Nat) → Option Item
  | [], _ => none
  | it :: rest, per =>
    if !(is_paper_like it.kind) then findBestPaper rest per
    else if !it.topical then findBestPaper rest per
    else if it.low_value_notice then findBestPaper rest per
    else if MAX_PER_SOURCE ≤ per it.source.name then findBestPaper rest per
    else some it

/-- `to_remove_pool` (lines 316-317): the non-paper-like selected items when
any exist, else the whole selected list. -/
def removal_pool (selected : List Item) : List Item :=
  let non_papers := selected.filter (fun it => !(is_paper_like it.kind))
  if non_papers.isEmpty then selected else non_papers

/-- The substitution block (lines 314-325): drop the lowest-scoring item of
the removal pool, append `best`, re-sort descending. `none` models the
`IndexError` Python would raise on `sorted([])[0]` (an empty pool). -/
def paper_substitution (selected : List Item) (best : Item) : Option (List Item) :=
  match sortAsc (removal_pool selected) with
  | [] => none
  | to_remove :: _ => some (sortDesc ((selected.erase to_remove) ++ [best]))

/-- `select_top_items` (lines 276-333). `none` models an uncaught
`IndexError`; every reachable path returns `some`. -/
def select_top_items (enriched : List Item) : Option (List Item) :=
  if REQUIRE_AT_LEAST_ONE_PAPER then
    if ((first_pass enriched).1).any qualifies then some (first_pass enriched).1
    else
      match findBestPaper (sortDesc enriched) (first_pass enriched).2 with
      | none => some (first_pass enriched).1
      | some best => paper_substitution (first_pass enriched).1 best
  else some (first_pass enriched).1

/-! ### Scoring lemmas -/

/-- Folding «add `c` when the keyword matches» over a keyword list adds `c`
per matching keyword. -/
lemma foldl_if_add (p : List Char → Bool) (c : Int) :
    ∀ (l : List (List Char)) (init : Int),
      l.foldl (fun acc kw => if p kw then acc + c else acc) init
        = init + c * (l.countP p : Int) := by
  intro l
  induction l with
  | nil => intro init; simp
  | cons kw l ih =>
    intro init
    rw [List.foldl_cons, ih, List.countP_cons]
    by_cases h : p kw
    · simp only [h, if_true, if_pos] ; push_cast ; ring
    · simp [h]

/-- The exact-rational age comparison in hours is the integer comparison in
seconds. -/
lemma hours_old_lt_iff (published now k : Int) :
    hours_old published now < (k : ℚ) ↔ now - published < k * 3600 := by
  rw [hours_old, div_lt_iff₀ (by norm_num : (0 : ℚ) < 3600)]
  rw [show ((k : ℚ) * 3600) = ((k * 3600 : Int) : ℚ) by push_cast ; ring]
  exact Int.cast_lt

lemma hours_old_lt_twelve (published now : Int) :
    hours_old published now < 12 ↔ now - published < 12 * 3600 := by
  have h := hours_old_lt_iff published now 12
  norm_num at h ⊢
  exact h

lemma hours_old_lt_twentyfour (published now : Int) :
    hours_old published now < 24 ↔ now - published < 24 * 3600 := by
  have h := hours_old_lt_iff published now 24
  norm_num at h ⊢
  exact h

/-- `score_item` with the freshness brackets phrased in integer seconds:
the form kernel evaluation can decide. -/
def score_item_secs (item : Cand) (text : List Char) (now : Int) : Int :=
  let title := lowerL item.title
  let body := lowerL text
  let url := lowerL item.url
  let s1 : Int := KEYWORDS_HIGH.foldl
    (fun acc kw => if containsSub kw title || containsSub kw body then acc + 3 else acc) 0
  let s2 : Int := KEYWORDS_CLINICAL.foldl
    (fun acc kw => if containsSub kw title || containsSub kw body then acc + 2 else acc) s1
  let s3 : Int := if HIGH_VALUE_DOMAINS.any (fun dom => containsSub dom url) then s2 + 3 else s2
  let s4 : Int :=
    if now - item.published < 12 * 3600 then s3 + 2
    else if now - item.published < 24 * 3600 then s3 + 1 else s3
  let s5 : Int := if NEGATIVE_KEYWORDS.any (fun kw => containsSub kw title) then s4 - 3 else s4
  if is_low_value_notice item.title then s5 - 20 else s5

lemma score_item_eq_secs (item : Cand) (text : List Char) (now : Int) :
    score_item item text now = score_item_secs item text now := by
  rw [score_item, score_item_secs]
  simp only [hours_old_lt_twelve, hours_old_lt_twentyfour]

/-- The additive closed form of `score_item`: 3 per matched high-value
keyword, 2 per matched clinical keyword, flat domain, freshness, finance and
notice terms, summed with no early exit and no clamping. -/
lemma score_item_formula_aux (item : Cand) (text : List Char) (now : Int) :
    score_item item text now =
      3 * (KEYWORDS_HIGH.countP
            (fun kw => containsSub kw (lowerL item.title) || containsSub kw (lowerL text)) : Int)
      + 2 * (KEYWORDS_CLINICAL.countP
            (fun kw => containsSub kw (lowerL item.title) || containsSub kw (lowerL text)) : Int)
      + (if HIGH_VALUE_DOMAINS.any (fun dom => containsSub dom (lowerL item.url)) then 3 else 0)
      + (if hours_old item.published now < 12 then 2
         else if hours_old item.published now < 24 then 1 else 0)
      + (if NEGATIVE_KEYWORDS.any (fun kw => containsSub kw (lowerL item.title)) then -3 else 0)
      + (if is_low_value_notice item.title then -20 else 0) := by
  simp only [score_item, foldl_if_add]
  split_ifs <;> ring

/-- A concrete candidate for the wall-clock counterexample: nothing topical,
published at time 0. -/
def candC1 : Cand :=
  { title := "x".toList, url := "u".toList, published := 0,
    source := "s", source_type := "rss" }

/-- C1 counterexample: scoring the very same `(title, body, url, publishedAt)`
at wall-clock instant 0 (age 0h, freshness +2) and at instant 360000s
(age 100h, freshness +0) yields different scores, so `score_item` does depend
on the current wall-clock time. -/
theorem score_item_not_clock_free :
    score_item candC1 [] 0 ≠ score_item candC1 [] 360000 := by
  rw [score_item_eq_secs, score_item_eq_secs]
  decide

/-- C1 (amended): `score_item` is a pure, deterministic function of
`(title, body, url, publishedAt)` and the wall-clock instant of the call; it
depends on the ambient clock only through the two freshness brackets
(age < 12h, age < 24h), so any two calls whose evaluation times put the item
in the same brackets return the same integer score. -/
theorem score_item_deterministic (item : Cand) (text : List Char) (now₁ now₂ : Int)
    (h12 : hours_old item.published now₁ < 12 ↔ hours_old item.published now₂ < 12)
    (h24 : hours_old item.published now₁ < 24 ↔ hours_old item.published now₂ < 24) :
    score_item item text now₁ = score_item item text now₂ := by
  rw [score_item_formula_aux, score_item_formula_aux]
  have hfresh : (if hours_old item.published now₁ < 12 then (2 : Int)
      else if hours_old item.published now₁ < 24 then 1 else 0)
      = (if hours_old item.published now₂ < 12 then (2 : Int)
      else if hours_old item.published now₂ < 24 then 1 else 0) := by
    by_cases a : hours_old item.published now₁ < 12
    · rw [if_pos a, if_pos (h12.mp a)]
    · rw [if_neg a, if_neg (fun h => a (h12.mpr h))]
      by_cases b : hours_old item.published now₁ < 24
      · rw [if_pos b, if_pos (h24.mp b)]
      · rw [if_neg b, if_neg (fun h => b (h24.mpr h))]
  rw [hfresh]

/-- C1 witness: two calls at instants 1000s and 2000s (both inside the
12-hour bracket for an item published at 0) return the same score. -/
theorem score_item_deterministic_witness :
    score_item candC1 [] 1000 = score_item candC1 [] 2000 :=
  score_item_deterministic candC1 [] 1000 2000
    (by simp only [hours_old_lt_twelve] ; decide)
    (by simp only [hours_old_lt_twentyfour] ; decide)

/-- C8: the score is the sum of the fixed additive rules, with no early exit:
+3 per distinct matched high-value keyword, +2 per distinct matched clinical
keyword, +3 for a high-trust domain in the URL, +2 / +1 / +0 by freshness
bracket, −3 for a finance keyword in the title, and −20 for a low-value
journal notice (so a title «Correction: ...» scores its base minus 20); the
sum is never clamped and may be negative. -/
theorem score_item_additive_rules (item : Cand) (text : List Char) (now : Int) :
    score_item item text now =
      3 * (KEYWORDS_HIGH.countP
            (fun kw => containsSub kw (lowerL item.title) || containsSub kw (lowerL text)) : Int)
      + 2 * (KEYWORDS_CLINICAL.countP
            (fun kw => containsSub kw (lowerL item.title) || containsSub kw (lowerL text)) : Int)
      + (if HIGH_VALUE_DOMAINS.any (fun dom => containsSub dom (lowerL item.url)) then 3 else 0)
      + (if hours_old item.published now < 12 then 2
         else if hours_old item.published now < 24 then 1 else 0)
      + (if NEGATIVE_KEYWORDS.any (fun kw => containsSub kw (lowerL item.title)) then -3 else 0)
      + (if is_low_value_notice item.title then -20 else 0) :=
  score_item_formula_aux item text now

/-! ### Sorting lemmas -/

lemma sortDesc_perm (l : List Item) : (sortDesc l).Perm l := List.perm_insertionSort _ _

lemma sortAsc_perm (l : List Item) : (sortAsc l).Perm l := List.perm_insertionSort _ _

lemma sortDesc_sorted (l : List Item) : List.Sorted scoreGE (sortDesc l) :=
  List.sorted_insertionSort _ _

lemma sortAsc_sorted (l : List Item) : List.Sorted scoreLE (sortAsc l) :=
  List.sorted_insertionSort _ _

/-! ### Greedy first pass -/

lemma greedyGo_cons (it : Item) (rest sel : List Item) (per : String → Nat) :
    greedyGo (it :: rest) sel per =
      if MAX_PER_SOURCE ≤ per it.source.name then greedyGo rest sel per
      else if MAX_ITEMS ≤ (sel ++ [it]).length then
        (sel ++ [it], fun s => if s = it.source.name then per s + 1 else per s)
      else
        greedyGo rest (sel ++ [it]) (fun s => if s = it.source.name then per s + 1 else per s) :=
  rfl

/-- The greedy pass only ever appends to `selected`, and what it appends is a
sublist of the remaining sorted items. -/
lemma greedyGo_shape : ∀ (l sel : List Item) (per : String → Nat),
    ∃ extra, (greedyGo l sel per).1 = sel ++ extra ∧ extra.Sublist l := by
  intro l
  induction l with
  | nil => exact fun sel per => ⟨[], by simp [greedyGo], List.nil_sublist _⟩
  | cons it rest ih =>
    intro sel per
    rw [greedyGo_cons]
    by_cases h1 : MAX_PER_SOURCE ≤ per it.source.name
    · rw [if_pos h1]
      obtain ⟨e, he, hs⟩ := ih sel per
      exact ⟨e, he, hs.cons it⟩
    · rw [if_neg h1]
      by_cases h2 : MAX_ITEMS ≤ (sel ++ [it]).length
      · rw [if_pos h2]
        exact ⟨[it], rfl, (List.nil_sublist rest).cons₂ it⟩
      · rw [if_neg h2]
        obtain ⟨e, he, hs⟩ := ih (sel ++ [it]) _
        exact ⟨it :: e, by rw [he, List.append_assoc] ; rfl, hs.cons₂ it⟩

/-- The greedy pass never exceeds `MAX_ITEMS` accepted items. -/
lemma greedyGo_length : ∀ (l sel : List Item) (per : String → Nat),
    sel.length < MAX_ITEMS → (greedyGo l sel per).1.length ≤ MAX_ITEMS := by
  intro l
  induction l with
  | nil => exact fun sel per h => by simpa [greedyGo] using Nat.le_of_lt h
  | cons it rest ih =>
    intro sel per h
    rw [greedyGo_cons]
    by_cases h1 : MAX_PER_SOURCE ≤ per it.source.name
    · rw [if_pos h1]
      exact ih sel per h
    · rw [if_neg h1]
      by_cases h2 : MAX_ITEMS ≤ (sel ++ [it]).length
      · rw [if_pos h2]
        simp only [List.length_append, List.length_cons, List.length_nil]
        omega
      · rw [if_neg h2]
        exact ih _ _ (Nat.lt_of_not_le h2)

/-- The `per_source` dict agrees with the accepted counts and never exceeds
`MAX_PER_SOURCE`, for any invariant-respecting starting state. -/
lemma greedyGo_per : ∀ (l sel : List Item) (per : String → Nat),
    (∀ s, per s = countSource sel s) → (∀ s, per s ≤ MAX_PER_SOURCE) →
    (∀ s, (greedyGo l sel per).2 s = countSource (greedyGo l sel per).1 s)
    ∧ (∀ s, (greedyGo l sel per).2 s ≤ MAX_PER_SOURCE) := by
  intro l
  induction l with
  | nil => exact fun sel per h₁ h₂ => ⟨h₁, h₂⟩
  | cons it rest ih =>
    intro sel per h₁ h₂
    have hstep₁ : ∀ s, (if s = it.source.name then per s + 1 else per s)
        = countSource (sel ++ [it]) s := by
      intro s
      rw [countSource, List.countP_append, ← countSource]
      by_cases hs : s = it.source.name
      · subst hs
        rw [if_pos rfl, h₁]
        simp [countSource, List.countP_cons]
      · rw [if_neg hs, h₁]
        have : (it.source.name == s) = false := by
          exact beq_eq_false_iff_ne.mpr (fun h => hs h.symm)
        simp [countSource, List.countP_cons, this]
    rw [greedyGo_cons]
    by_cases h1 : MAX_PER_SOURCE ≤ per it.source.name
    · rw [if_pos h1]
      exact ih sel per h₁ h₂
    · have hstep₂ : ∀ s, (if s = it.source.name then per s + 1 else per s) ≤ MAX_PER_SOURCE := by
        intro s
        by_cases hs : s = it.source.name
        · subst hs
          rw [if_pos rfl]
          omega
        · rw [if_neg hs]
          exact h₂ s
      rw [if_neg h1]
      by_cases h2 : MAX_ITEMS ≤ (sel ++ [it]).length
      · rw [if_pos h2]
        exact ⟨hstep₁, hstep₂⟩
      · rw [if_neg h2]
        exact ih _ _ hstep₁ hstep₂

/-- On a non-empty sorted list the greedy pass accepts at least its head. -/
lemma greedyGo_ne_nil (it : Item) (rest : List Item) :
    (greedyGo (it :: rest) [] (fun _ => 0)).1 ≠ [] := by
  rw [greedyGo_cons]
  rw [if_neg (by simp [MAX_PER_SOURCE])]
  by_cases h2 : MAX_ITEMS ≤ (([] : List Item) ++ [it]).length
  · rw [if_pos h2]
    simp
  · rw [if_neg h2]
    obtain ⟨e, he, -⟩ := greedyGo_shape rest ([] ++ [it]) _
    rw [he]
    simp

lemma first_pass_per (enriched : List Item) :
    (∀ s, (first_pass enriched).2 s = countSource (first_pass enriched).1 s)
    ∧ (∀ s, (first_pass enriched).2 s ≤ MAX_PER_SOURCE) :=
  greedyGo_per _ [] _ (fun s => by simp [countSource]) (fun _ => Nat.zero_le _)

lemma first_pass_length (enriched : List Item) :
    (first_pass enriched).1.length ≤ MAX_ITEMS :=
  greedyGo_length _ [] _ (by simp [MAX_ITEMS])

lemma first_pass_sublist (enriched : List Item) :
    (first_pass enriched).1.Sublist (sortDesc enriched) := by
  obtain ⟨e, he, hs⟩ := greedyGo_shape (sortDesc enriched) [] (fun _ => 0)
  rw [first_pass, he]
  simpa using hs

lemma first_pass_subset (enriched : List Item) :
    ∀ x ∈ (first_pass enriched).1, x ∈ enriched :=
  fun x hx => (sortDesc_perm enriched).subset ((first_pass_sublist enriched).subset hx)

lemma first_pass_ne_nil (enriched : List Item) (h : enriched ≠ []) :
    (first_pass enriched).1 ≠ [] := by
  rw [first_pass]
  cases hs : sortDesc enriched with
  | nil =>
    have hperm := sortDesc_perm enriched
    rw [hs] at hperm
    exact absurd hperm.symm.eq_nil h
  | cons it rest => exact hs ▸ greedyGo_ne_nil it rest

/-! ### The best-paper search -/

lemma qualifies_iff (x : Item) : qualifies x = true ↔
    is_paper_like x.kind = true ∧ x.topical = true ∧ x.low_value_notice = false := by
  simp [qualifies, Bool.and_eq_true, Bool.not_eq_true', and_assoc]

lemma findBestPaper_cons (it : Item) (rest : List Item) (per : String → Nat) :
    findBestPaper (it :: rest) per =
      if !(is_paper_like it.kind) then findBestPaper rest per
      else if !it.topical then findBestPaper rest per
      else if it.low_value_notice then findBestPaper rest per
      else if MAX_PER_SOURCE ≤ per it.source.name then findBestPaper rest per
      else some it :=
  rfl

/-- What a successful best-paper search returns: a qualifying item whose
source is under the cap, sitting after a prefix of the scanned list in which
nothing qualifies under the cap. -/
lemma findBestPaper_some : ∀ (l : List Item) (per : String → Nat) (b : Item),
    findBestPaper l per = some b →
    qualifies b = true ∧ per b.source.name < MAX_PER_SOURCE ∧
    ∃ l₁ l₂, l = l₁ ++ b :: l₂ ∧
      ∀ x ∈ l₁, ¬(qualifies x = true ∧ per x.source.name < MAX_PER_SOURCE) := by
  intro l
  induction l with
  | nil => intro per b h; simp [findBestPaper] at h
  | cons it rest ih =>
    intro per b h
    rw [findBestPaper_cons] at h
    have skip : findBestPaper rest per = some b →
        ¬(qualifies it = true ∧ per it.source.name < MAX_PER_SOURCE) →
        qualifies b = true ∧ per b.source.name < MAX_PER_SOURCE ∧
        ∃ l₁ l₂, it :: rest = l₁ ++ b :: l₂ ∧
          ∀ x ∈ l₁, ¬(qualifies x = true ∧ per x.source.name < MAX_PER_SOURCE) := by
      intro h' hbad
      obtain ⟨hq, hcap, l₁, l₂, hsplit, hl₁⟩ := ih per b h'
      refine ⟨hq, hcap, it :: l₁, l₂, by rw [hsplit] ; rfl, ?_⟩
      intro x hx
      rcases List.mem_cons.mp hx with rfl | hx'
      · exact hbad
      · exact hl₁ x hx'
    by_cases c1 : is_paper_like it.kind
    case neg =>
      rw [if_pos (by simp [c1])] at h
      exact skip h (fun hc => c1 ((qualifies_iff it).mp hc.1).1)
    case pos =>
    rw [if_neg (by simp [c1])] at h
    by_cases c2 : it.topical
    case neg =>
      rw [if_pos (by simp [c2])] at h
      exact skip h (fun hc => c2 ((qualifies_iff it).mp hc.1).2.1)
    case pos =>
    rw [if_neg (by simp [c2])] at h
    by_cases c3 : it.low_value_notice
    case pos =>
      rw [if_pos c3] at h
      exact skip h (fun hc => by rw [((qualifies_iff it).mp hc.1).2.2] at c3 ; exact absurd c3 (by simp))
    case neg =>
    rw [if_neg c3] at h
    by_cases c4 : MAX_PER_SOURCE ≤ per it.source.name
    case pos =>
      rw [if_pos c4] at h
      exact skip h (fun hc => absurd hc.2 (Nat.not_lt_of_le c4))
    case neg =>
    rw [if_neg c4] at h
    obtain rfl : it = b := Option.some.inj h
    refine ⟨(qualifies_iff it).mpr ⟨c1, by simpa using c2, by simpa using c3⟩,
      Nat.lt_of_not_le c4, [], rest, rfl, by simp⟩

/-- If some scanned item qualifies and its source is under the cap, the
best-paper search succeeds. -/
lemma findBestPaper_isSome : ∀ (l : List Item) (per : String → Nat) (x : Item),
    x ∈ l → qualifies x = true → per x.source.name < MAX_PER_SOURCE →
    ∃ b, findBestPaper l per = some b := by
  intro l
  induction l with
  | nil => intro per x hx; simp at hx
  | cons it rest ih =>
    intro per x hx hq hcap
    rw [findBestPaper_cons]
    obtain ⟨q1, q2, q3⟩ := (qualifies_iff x).mp hq
    by_cases c1 : is_paper_like it.kind
    case neg =>
      rw [if_pos (by simp [c1])]
      rcases List.mem_cons.mp hx with rfl | hx'
      · exact absurd q1 c1
      · exact ih per x hx' hq hcap
    case pos =>
    rw [if_neg (by simp [c1])]
    by_cases c2 : it.topical
    case neg =>
      rw [if_pos (by simp [c2])]
      rcases List.mem_cons.mp hx with rfl | hx'
      · exact absurd q2 c2
      · exact ih per x hx' hq hcap
    case pos =>
    rw [if_neg (by simp [c2])]
    by_cases c3 : it.low_value_notice
    case pos =>
      rw [if_pos c3]
      rcases List.mem_cons.mp hx with rfl | hx'
      · rw [q3] at c3
        exact absurd c3 (by simp)
      · exact ih per x hx' hq hcap
    case neg =>
    rw [if_neg c3]
    by_cases c4 : MAX_PER_SOURCE ≤ per it.source.name
    case pos =>
      rw [if_pos c4]
      rcases List.mem_cons.mp hx with rfl | hx'
      · exact absurd hcap (Nat.not_lt_of_le c4)
      · exact ih per x hx' hq hcap
    case neg =>
      rw [if_neg c4]
      exact ⟨it, rfl⟩

/-- With no qualifying item at all, the best-paper search fails. -/
lemma findBestPaper_none_of : ∀ (l : List Item) (per : String → Nat),
    (∀ x ∈ l, qualifies x = false) → findBestPaper l per = none := by
  intro l
  induction l with
  | nil => intro per _; rfl
  | cons it rest ih =>
    intro per h
    have hit := h it (List.mem_cons_self it rest)
    have hrest := fun x hx => h x (List.mem_cons_of_mem it hx)
    rw [findBestPaper_cons]
    by_cases c1 : is_paper_like it.kind
    case neg =>
      rw [if_pos (by simp [c1])]
      exact ih per hrest
    case pos =>
    rw [if_neg (by simp [c1])]
    by_cases c2 : it.topical
    case neg =>
      rw [if_pos (by simp [c2])]
      exact ih per hrest
    case pos =>
    rw [if_neg (by simp [c2])]
    by_cases c3 : it.low_value_notice
    case pos =>
      rw [if_pos c3]
      exact ih per hrest
    case neg =>
      exact absurd ((qualifies_iff it).mpr ⟨c1, by simpa using c2, by simpa using c3⟩)
        (by rw [hit] ; simp)

/-! ### The removal pool and the case analysis of `select_top_items` -/

lemma removal_pool_subset (sel : List Item) : ∀ x ∈ removal_pool sel, x ∈ sel := by
  rw [removal_pool]
  by_cases h : (sel.filter fun it => !(is_paper_like it.kind)).isEmpty
  · rw [if_pos h]
    exact fun x hx => hx
  · rw [if_neg h]
    exact fun x hx => List.mem_of_mem_filter hx

lemma removal_pool_ne_nil (sel : List Item) (h : sel ≠ []) : removal_pool sel ≠ [] := by
  rw [removal_pool]
  by_cases hf : (sel.filter fun it => !(is_paper_like it.kind)).isEmpty
  · rw [if_pos hf]
    exact h
  · rw [if_neg hf]
    intro hc
    rw [hc] at hf
    simp at hf

/-- The three ways `select_top_items` can run: the greedy result already has
a qualifying paper; no qualifying paper is insertable; or the substitution
fires, with its removed head and re-sorted result. The crash branch
(`sorted([])[0]`) is unreachable. -/
lemma select_cases (enriched : List Item) :
    (((first_pass enriched).1).any qualifies = true ∧
      select_top_items enriched = some (first_pass enriched).1)
    ∨ (((first_pass enriched).1).any qualifies = false ∧
      findBestPaper (sortDesc enriched) (first_pass enriched).2 = none ∧
      select_top_items enriched = some (first_pass enriched).1)
    ∨ (∃ best to_remove rest',
      ((first_pass enriched).1).any qualifies = false ∧
      findBestPaper (sortDesc enriched) (first_pass enriched).2 = some best ∧
      sortAsc (removal_pool (first_pass enriched).1) = to_remove :: rest' ∧
      select_top_items enriched
        = some (sortDesc ((((first_pass enriched).1).erase to_remove) ++ [best]))) := by
  have hunf : select_top_items enriched =
      (if ((first_pass enriched).1).any qualifies then some (first_pass enriched).1
       else
        match findBestPaper (sortDesc enriched) (first_pass enriched).2 with
        | none => some (first_pass enriched).1
        | some best => paper_substitution (first_pass enriched).1 best) := rfl
  by_cases hany : ((first_pass enriched).1).any qualifies
  · exact Or.inl ⟨hany, by rw [hunf, if_pos hany]⟩
  · rw [if_neg hany] at hunf
    cases hfb : findBestPaper (sortDesc enriched) (first_pass enriched).2 with
    | none =>
      rw [hfb] at hunf
      exact Or.inr (Or.inl ⟨by simpa using hany, rfl, hunf⟩)
    | some best =>
      rw [hfb] at hunf
      have hb_mem : best ∈ sortDesc enriched := by
        obtain ⟨-, -, l₁, l₂, hsplit, -⟩ := findBestPaper_some _ _ _ hfb
        rw [hsplit]
        exact List.mem_append.mpr (Or.inr (List.mem_cons_self _ _))
      have henr : enriched ≠ [] := by
        intro hnil
        rw [hnil] at hb_mem
        simp [sortDesc, List.insertionSort] at hb_mem
      have hpool_ne : removal_pool (first_pass enriched).1 ≠ [] :=
        removal_pool_ne_nil _ (first_pass_ne_nil enriched henr)
      cases hpool : sortAsc (removal_pool (first_pass enriched).1) with
      | nil =>
        have := sortAsc_perm (removal_pool (first_pass enriched).1)
        rw [hpool] at this
        exact absurd this.symm.eq_nil hpool_ne
      | cons to_remove rest' =>
        refine Or.inr (Or.inr ⟨best, to_remove, rest', by simpa using hany, rfl, rfl, ?_⟩)
        rw [hunf]
        unfold paper_substitution
        rw [hpool]

/-! ### Selection claims -/

/-- C2: whatever `select_top_items` returns (also when the paper-guarantee
substitution fires) has at most `MAX_ITEMS` items and at most
`MAX_PER_SOURCE` items of any one source. -/
theorem select_top_items_caps (enriched : List Item) (r : List Item)
    (h : select_top_items enriched = some r) :
    r.length ≤ MAX_ITEMS ∧ ∀ s, countSource r s ≤ MAX_PER_SOURCE := by
  have hper := first_pass_per enriched
  have hlen := first_pass_length enriched
  have hcap_sel : ∀ s, countSource (first_pass enriched).1 s ≤ MAX_PER_SOURCE :=
    fun s => hper.1 s ▸ hper.2 s
  rcases select_cases enriched with ⟨-, hsel⟩ | ⟨-, -, hsel⟩ |
    ⟨best, t, rest', -, hfb, hpool, hsel⟩
  · obtain rfl := Option.some.inj (hsel.symm.trans h)
    exact ⟨hlen, hcap_sel⟩
  · obtain rfl := Option.some.inj (hsel.symm.trans h)
    exact ⟨hlen, hcap_sel⟩
  · obtain rfl := Option.some.inj (hsel.symm.trans h)
    have ht_pool : t ∈ removal_pool (first_pass enriched).1 :=
      (sortAsc_perm _).subset (by rw [hpool] ; exact List.mem_cons_self _ _)
    have ht_sel : t ∈ (first_pass enriched).1 := removal_pool_subset _ _ ht_pool
    have hsel_pos : 0 < ((first_pass enriched).1).length :=
      List.length_pos.mpr (List.ne_nil_of_mem ht_sel)
    have hperm := sortDesc_perm ((((first_pass enriched).1).erase t) ++ [best])
    have hlen_r : (sortDesc ((((first_pass enriched).1).erase t) ++ [best])).length
        = (((first_pass enriched).1).erase t).length + 1 := by
      rw [hperm.length_eq]
      simp
    rw [List.length_erase_of_mem ht_sel] at hlen_r
    constructor
    · omega
    · intro s
      have hcnt : countSource (sortDesc ((((first_pass enriched).1).erase t) ++ [best])) s
          = countSource (((first_pass enriched).1).erase t) s + countSource [best] s := by
        rw [countSource, hperm.countP_eq, List.countP_append]
        rfl
      have h1 : countSource (((first_pass enriched).1).erase t) s
          ≤ countSource (first_pass enriched).1 s :=
        List.Sublist.countP_le _ (List.erase_sublist t _)
      by_cases hs : best.source.name = s
      · have hcapb : countSource (first_pass enriched).1 best.source.name < MAX_PER_SOURCE := by
          rw [← hper.1]
          exact (findBestPaper_some _ _ _ hfb).2.1
        have hone : countSource [best] s = 1 := by
          simp [countSource, List.countP_cons, hs]
        rw [hs] at hcapb
        have h2 := hcap_sel s
        omega
      · have hzero : countSource [best] s = 0 := by
          simp [countSource, List.countP_cons, hs]
        have h2 := hcap_sel s
        omega

/-- Fixture: a non-paper news item of source `nm` with score `sc`. -/
def exNews (nm : String) (sc : Int) : Item :=
  { headline := [], text := [], score := sc, kind := "news", topical := false,
    low_value_notice := false, source := { name := nm, url := [] } }

/-- Fixture: a qualifying topical paper, lowest score of the fixture set. -/
def exPaper : Item :=
  { headline := [], text := [], score := 1, kind := "paper", topical := true,
    low_value_notice := false, source := { name := "P", url := [] } }

/-- Fixture: five higher-scoring non-papers (three sources) plus the paper. -/
def exItems : List Item :=
  [exNews "A" 10, exNews "A" 9, exNews "B" 8, exNews "B" 7, exNews "C" 6, exPaper]

/-- The expected selection for `exItems`: the guarantee replaces the
lowest-scoring non-paper (score 6) with the paper. -/
def exResult : List Item :=
  [exNews "A" 10, exNews "A" 9, exNews "B" 8, exNews "B" 7, exPaper]

/-- C2 witness: the bounds hold on a run whose substitution step fired. -/
theorem select_top_items_caps_witness :
    select_top_items exItems = some exResult ∧
    exResult.length ≤ MAX_ITEMS ∧ countSource exResult "A" ≤ MAX_PER_SOURCE := by
  have h : select_top_items exItems = some exResult := by decide
  exact ⟨h, (select_top_items_caps exItems exResult h).1,
    (select_top_items_caps exItems exResult h).2 "A"⟩

/-- C3: if some enriched item is paper-like, topical, not a notice, and its
source is under the cap left by the greedy pass, the returned selection
contains a qualifying item; and if no enriched item qualifies at all, the
guarantee step returns the greedily selected list unchanged. -/
theorem select_top_items_guarantee :
    (∀ enriched : List Item,
      (∃ it ∈ enriched, qualifies it = true ∧
        countSource (first_pass enriched).1 it.source.name < MAX_PER_SOURCE) →
      ∃ r, select_top_items enriched = some r ∧ ∃ x ∈ r, qualifies x = true)
    ∧ (∀ enriched : List Item, (∀ it ∈ enriched, qualifies it = false) →
      select_top_items enriched = some (first_pass enriched).1) := by
  constructor
  · rintro enriched ⟨it, hit, hq, hcap⟩
    have hper := first_pass_per enriched
    rcases select_cases enriched with ⟨hany, hsel⟩ | ⟨hany, hfb, hsel⟩ |
      ⟨best, t, rest', hany, hfb, hpool, hsel⟩
    · obtain ⟨x, hx, hqx⟩ := List.any_eq_true.mp hany
      exact ⟨_, hsel, x, hx, hqx⟩
    · exfalso
      have hit' : it ∈ sortDesc enriched := (sortDesc_perm enriched).mem_iff.mpr hit
      have hcap' : (first_pass enriched).2 it.source.name < MAX_PER_SOURCE := by
        rw [hper.1]
        exact hcap
      obtain ⟨b, hb⟩ := findBestPaper_isSome _ _ it hit' hq hcap'
      exact absurd (hb.symm.trans hfb) (by simp)
    · refine ⟨_, hsel, best, ?_, (findBestPaper_some _ _ _ hfb).1⟩
      exact (sortDesc_perm _).symm.subset
        (List.mem_append.mpr (Or.inr (List.mem_cons_self _ _)))
  · intro enriched hall
    have hany : ((first_pass enriched).1).any qualifies = false := by
      rw [List.any_eq_false]
      intro x hx
      rw [hall x (first_pass_subset enriched x hx)]
      simp
    have hfb : findBestPaper (sortDesc enriched) (first_pass enriched).2 = none :=
      findBestPaper_none_of _ _ (fun x hx => hall x ((sortDesc_perm enriched).subset hx))
    rcases select_cases enriched with ⟨hany', hsel⟩ | ⟨-, -, hsel⟩ |
      ⟨best, t, rest', -, hfb', -, -⟩
    · rw [hany] at hany'
      cases hany'
    · exact hsel
    · rw [hfb] at hfb'
      cases hfb'

/-- C4: when the guarantee fires (no selected item qualifies and the search
finds `best`), the substitution removes a minimum-score member of the removal
pool (the non-paper-like selected items when any exist, else the whole
selection), appends `best` — a qualifying item, under its source's cap, and
of maximal score among qualifying cap-respecting enriched items — re-sorts by
score descending, and keeps the selection size unchanged. -/
theorem select_top_items_substitution (enriched : List Item) (best : Item)
    (hany : ((first_pass enriched).1).any qualifies = false)
    (hfb : findBestPaper (sortDesc enriched) (first_pass enriched).2 = some best) :
    (∃ to_remove r, select_top_items enriched = some r ∧
      to_remove ∈ removal_pool (first_pass enriched).1 ∧
      (∀ x ∈ removal_pool (first_pass enriched).1, to_remove.score ≤ x.score) ∧
      r = sortDesc ((((first_pass enriched).1).erase to_remove) ++ [best]) ∧
      r.length = ((first_pass enriched).1).length)
    ∧ qualifies best = true
    ∧ countSource (first_pass enriched).1 best.source.name < MAX_PER_SOURCE
    ∧ ∀ x ∈ enriched, qualifies x = true →
        countSource (first_pass enriched).1 x.source.name < MAX_PER_SOURCE →
        x.score ≤ best.score := by
  have hper := first_pass_per enriched
  obtain ⟨hq, hcapPer, l₁, l₂, hsplit, hl₁⟩ := findBestPaper_some _ _ _ hfb
  rcases select_cases enriched with ⟨hany', hsel⟩ | ⟨-, hfb', -⟩ |
    ⟨best', t, rest', -, hfb', hpool, hsel⟩
  · rw [hany] at hany'
    cases hany'
  · rw [hfb] at hfb'
    cases hfb'
  · obtain rfl : best = best' := Option.some.inj (hfb.symm.trans hfb')
    have ht_pool : t ∈ removal_pool (first_pass enriched).1 :=
      (sortAsc_perm _).subset (by rw [hpool] ; exact List.mem_cons_self _ _)
    have ht_sel : t ∈ (first_pass enriched).1 := removal_pool_subset _ _ ht_pool
    have hsel_pos : 0 < ((first_pass enriched).1).length :=
      List.length_pos.mpr (List.ne_nil_of_mem ht_sel)
    have hsorted := sortAsc_sorted (removal_pool (first_pass enriched).1)
    rw [hpool] at hsorted
    have hmin : ∀ x ∈ removal_pool (first_pass enriched).1, t.score ≤ x.score := by
      intro x hx
      have hx' : x ∈ t :: rest' := by
        rw [← hpool]
        exact (sortAsc_perm _).mem_iff.mpr hx
      rcases List.mem_cons.mp hx' with rfl | hx''
      · exact le_refl _
      · exact (List.sorted_cons.mp hsorted).1 x hx''
    have hperm := sortDesc_perm ((((first_pass enriched).1).erase t) ++ [best])
    have hlen_r : (sortDesc ((((first_pass enriched).1).erase t) ++ [best])).length
        = (((first_pass enriched).1).erase t).length + 1 := by
      rw [hperm.length_eq]
      simp
    rw [List.length_erase_of_mem ht_sel] at hlen_r
    refine ⟨⟨t, _, hsel, ht_pool, hmin, rfl, by omega⟩, hq, by rw [← hper.1] ; exact hcapPer, ?_⟩
    intro x hx hqx hcx
    have hcx' : (first_pass enriched).2 x.source.name < MAX_PER_SOURCE := by
      rw [hper.1]
      exact hcx
    have hx' : x ∈ sortDesc enriched := (sortDesc_perm _).mem_iff.mpr hx
    rw [hsplit] at hx'
    rcases List.mem_append.mp hx' with h1 | h2
    · exact absurd ⟨hqx, hcx'⟩ (hl₁ x h1)
    · have hsorted2 := sortDesc_sorted enriched
      rw [hsplit] at hsorted2
      rcases List.mem_cons.mp h2 with rfl | h3
      · exact le_refl _
      · exact (List.sorted_cons.mp (List.pairwise_append.mp hsorted2).2.1).1 x h3

/-- C4 witness: on the five-non-papers-plus-low-scoring-paper fixture the
guarantee fires, the inserted paper qualifies and is under its cap, and the
concretely computed result replaces the lowest non-paper at unchanged size. -/
theorem select_top_items_substitution_witness :
    qualifies exPaper = true ∧
    countSource (first_pass exItems).1 exPaper.source.name < MAX_PER_SOURCE ∧
    select_top_items exItems = some exResult ∧ exResult.length = 5 := by
  have h := select_top_items_substitution exItems exPaper (by decide) (by decide)
  exact ⟨h.2.1, h.2.2.1, by decide, by decide⟩

/-- C10: `select_top_items` always returns a result (the removal pool is
never empty when a qualifying paper was found, so the `sorted([])[0]` crash
is unreachable); on duplicate-free input the result is duplicate-free; and
the inserted paper is never an item the greedy pass already selected. -/
theorem select_top_items_no_dup :
    (∀ enriched : List Item, (select_top_items enriched).isSome = true)
    ∧ (∀ (enriched r : List Item), enriched.Nodup → select_top_items enriched = some r →
      r.Nodup)
    ∧ (∀ (enriched : List Item) (best : Item),
      ((first_pass enriched).1).any qualifies = false →
      findBestPaper (sortDesc enriched) (first_pass enriched).2 = some best →
      best ∉ (first_pass enriched).1) := by
  have hnotin : ∀ (enriched : List Item) (best : Item),
      ((first_pass enriched).1).any qualifies = false →
      qualifies best = true → best ∉ (first_pass enriched).1 := by
    intro enriched best hany hq hmem
    have := List.any_eq_false.mp hany best hmem
    rw [hq] at this
    exact this rfl
  refine ⟨?_, ?_, ?_⟩
  · intro enriched
    rcases select_cases enriched with ⟨-, hsel⟩ | ⟨-, -, hsel⟩ | ⟨_, _, _, -, -, -, hsel⟩ <;>
      rw [hsel] <;> rfl
  · intro enriched r hnd h
    have hnds : (sortDesc enriched).Nodup := ((sortDesc_perm enriched).nodup_iff).mpr hnd
    have hnsel : ((first_pass enriched).1).Nodup := hnds.sublist (first_pass_sublist enriched)
    rcases select_cases enriched with ⟨-, hsel⟩ | ⟨-, -, hsel⟩ |
      ⟨best, t, rest', hany, hfb, hpool, hsel⟩
    · obtain rfl := Option.some.inj (hsel.symm.trans h)
      exact hnsel
    · obtain rfl := Option.some.inj (hsel.symm.trans h)
      exact hnsel
    · obtain rfl := Option.some.inj (hsel.symm.trans h)
      have hq := (findBestPaper_some _ _ _ hfb).1
      have hbn : best ∉ (first_pass enriched).1 := hnotin enriched best hany hq
      have hdisj : (((first_pass enriched).1).erase t).Disjoint [best] := by
        intro a ha hb
        rw [List.mem_singleton] at hb
        subst hb
        exact hbn ((List.erase_sublist t _).subset ha)
      exact ((sortDesc_perm _).nodup_iff).mpr
        (((hnsel.erase t).append (List.nodup_singleton best)) hdisj)
  · intro enriched best hany hfb
    exact hnotin enriched best hany (findBestPaper_some _ _ _ hfb).1

/-! ### Fetch claims -/

/-- Any text a successful fetch returns is between the two length bounds. -/
lemma fetch_bounds_aux (w : FetchWorld) (t : List Char)
    (h : (fetch_article_text w).1 = some t) :
    MIN_ARTICLE_CHARS ≤ t.length ∧ t.length ≤ MAX_ARTICLE_CHARS := by
  cases w with
  | raises k => simp [fetch_article_text] at h
  | net d e =>
    cases e with
    | none =>
      simp only [fetch_article_text] at h
      split_ifs at h
    | some text =>
      simp only [fetch_article_text] at h
      split_ifs at h with hd he hlen
      obtain rfl : List.take MAX_ARTICLE_CHARS text = t := Option.some.inj h
      rw [List.length_take]
      refine ⟨le_min (by norm_num [MIN_ARTICLE_CHARS, MAX_ARTICLE_CHARS]) ?_, min_le_left _ _⟩
      exact Nat.le_of_not_lt hlen

/-- C5: a successful fetch returns text with
`MIN_ARTICLE_CHARS ≤ len ≤ MAX_ARTICLE_CHARS`; undersized extractions are
rejected as `text_too_short_or_teaser`, overlong ones truncated to
`MAX_ARTICLE_CHARS`; hence every enriched item's body respects the bounds. -/
theorem fetch_article_text_bounds :
    (∀ (w : FetchWorld) (t : List Char), (fetch_article_text w).1 = some t →
      MIN_ARTICLE_CHARS ≤ t.length ∧ t.length ≤ MAX_ARTICLE_CHARS)
    ∧ (∀ (d : Option (List Char)) (text : List Char), optFalsy d = false →
      text ≠ [] → text.length < MIN_ARTICLE_CHARS →
      fetch_article_text (.net d (some text)) = (none, some "text_too_short_or_teaser"))
    ∧ (∀ (d : Option (List Char)) (text : List Char), optFalsy d = false →
      MIN_ARTICLE_CHARS ≤ text.length →
      fetch_article_text (.net d (some text)) = (some (text.take MAX_ARTICLE_CHARS), none))
    ∧ (∀ (world : Cand → FetchWorld) (now : Int) (cs : List Cand),
      ∀ it ∈ enrich world now cs,
      MIN_ARTICLE_CHARS ≤ it.text.length ∧ it.text.length ≤ MAX_ARTICLE_CHARS) := by
  refine ⟨fetch_bounds_aux, ?_, ?_, ?_⟩
  · intro d text hd hne hlt
    simp only [fetch_article_text]
    rw [if_neg (by simp [hd]), if_neg (by simp [List.isEmpty_iff, hne]), if_pos hlt]
  · intro d text hd hge
    simp only [fetch_article_text]
    have hne : text ≠ [] := by
      intro hc
      rw [hc] at hge
      norm_num [MIN_ARTICLE_CHARS] at hge
    rw [if_neg (by simp [hd]), if_neg (by simp [List.isEmpty_iff, hne]),
      if_neg (Nat.not_lt_of_le hge)]
  · intro world now cs it hit
    obtain ⟨c, -, hc⟩ := List.mem_filterMap.mp hit
    rw [enrich_one] at hc
    rcases hfc : fetch_article_text (world c) with ⟨fst, snd⟩
    rw [hfc] at hc
    cases fst with
    | none => simp at hc
    | some text =>
      simp only at hc
      split_ifs at hc with he
      obtain rfl : _ = it := Option.some.inj hc
      exact fetch_bounds_aux (world c) text (by rw [hfc])

/-- C7: the fetch is total with a classified outcome — either text with no
drop reason, or no text with a reason among `fetch_failed`,
`extract_failed`, `text_too_short_or_teaser` and `exception:<kind>` — and a
candidate's failure is local: the enrichment of a concatenation is the
concatenation of the enrichments, so the remaining candidates are processed
unchanged. -/
theorem fetch_article_text_classified :
    (∀ w : FetchWorld,
      (∃ t, fetch_article_text w = (some t, none)) ∨
      (∃ reason, fetch_article_text w = (none, some reason) ∧
        (reason = "fetch_failed" ∨ reason = "extract_failed" ∨
         reason = "text_too_short_or_teaser" ∨ ∃ k, reason = "exception:" ++ k)))
    ∧ (∀ (world : Cand → FetchWorld) (now : Int) (cs₁ cs₂ : List Cand),
      enrich world now (cs₁ ++ cs₂) = enrich world now cs₁ ++ enrich world now cs₂) := by
  constructor
  · intro w
    cases w with
    | raises k =>
      exact Or.inr ⟨"exception:" ++ k, rfl, Or.inr (Or.inr (Or.inr ⟨k, rfl⟩))⟩
    | net d e =>
      by_cases hd : optFalsy d
      · exact Or.inr ⟨"fetch_failed", by simp [fetch_article_text, hd], Or.inl rfl⟩
      · cases e with
        | none =>
          exact Or.inr ⟨"extract_failed", by simp [fetch_article_text, hd],
            Or.inr (Or.inl rfl)⟩
        | some text =>
          by_cases he : text.isEmpty
          · exact Or.inr ⟨"extract_failed", by simp [fetch_article_text, hd, he],
              Or.inr (Or.inl rfl)⟩
          · by_cases hlen : text.length < MIN_ARTICLE_CHARS
            · exact Or.inr ⟨"text_too_short_or_teaser",
                by simp [fetch_article_text, hd, he, hlen], Or.inr (Or.inr (Or.inl rfl))⟩
            · exact Or.inl ⟨text.take MAX_ARTICLE_CHARS,
                by simp [fetch_article_text, hd, he, hlen]⟩
  · intro world now cs₁ cs₂
    exact List.filterMap_append _ _ _

/-! ### Deduplication claims -/

lemma dedup_go_cons (c : Cand) (rest : List Cand) (seen : List (List Char)) :
    dedup_go (c :: rest) seen =
      if c.url.isEmpty || seen.contains c.url then dedup_go rest seen
      else c :: dedup_go rest (c.url :: seen) :=
  rfl

/-- The dedup loop invariant, generalised over the `seen` set: kept items
have fresh non-empty URLs, form a sublist, have pairwise distinct URLs, and
each is the first occurrence of its URL among candidates not pre-seen. -/
lemma dedup_go_spec : ∀ (cs : List Cand) (seen : List (List Char)),
    (∀ c ∈ dedup_go cs seen, c.url ∉ seen ∧ c.url ≠ []) ∧
    (dedup_go cs seen).Sublist cs ∧
    List.Pairwise (fun a b => a.url ≠ b.url) (dedup_go cs seen) ∧
    (∀ c ∈ dedup_go cs seen, ∃ pre post, cs = pre ++ c :: post ∧
      ∀ c' ∈ pre, c'.url ≠ c.url) := by
  intro cs
  induction cs with
  | nil => exact fun seen => ⟨by simp [dedup_go], by simp [dedup_go], by simp [dedup_go],
      by simp [dedup_go]⟩
  | cons c rest ih =>
    intro seen
    rw [dedup_go_cons]
    by_cases h : c.url.isEmpty || seen.contains c.url
    · rw [if_pos h]
      obtain ⟨ih₁, ih₂, ih₃, ih₄⟩ := ih seen
      have hfirst : ∀ x ∈ dedup_go rest seen, c.url ≠ x.url := by
        intro x hx heq
        obtain ⟨hx₁, hx₂⟩ := ih₁ x hx
        rcases Bool.or_eq_true_iff.mp h with hemp | hmem
        · exact hx₂ (by rw [← heq] ; exact List.isEmpty_iff.mp hemp)
        · exact hx₁ (by rw [← heq] ; exact List.mem_of_elem_eq_true hmem)
      refine ⟨ih₁, ih₂.cons c, ih₃, ?_⟩
      intro x hx
      obtain ⟨pre, post, hsplit, hpre⟩ := ih₄ x hx
      refine ⟨c :: pre, post, by rw [hsplit] ; rfl, ?_⟩
      intro c' hc'
      rcases List.mem_cons.mp hc' with rfl | hc''
      · exact hfirst x hx
      · exact hpre c' hc''
    · rw [if_neg h]
      obtain ⟨hemp, hmem⟩ := by simpa [Bool.or_eq_true_iff] using h
      obtain ⟨ih₁, ih₂, ih₃, ih₄⟩ := ih (c.url :: seen)
      have hne_tail : ∀ x ∈ dedup_go rest (c.url :: seen), c.url ≠ x.url := by
        intro x hx heq
        exact (ih₁ x hx).1 (by rw [← heq] ; exact List.mem_cons_self _ _)
      refine ⟨?_, ih₂.cons₂ c, ?_, ?_⟩
      · intro x hx
        rcases List.mem_cons.mp hx with rfl | hx'
        · exact ⟨hmem, hemp⟩
        · obtain ⟨hx₁, hx₂⟩ := ih₁ x hx'
          exact ⟨fun hm => hx₁ (List.mem_cons_of_mem _ hm), hx₂⟩
      · exact List.pairwise_cons.mpr ⟨hne_tail, ih₃⟩
      · intro x hx
        rcases List.mem_cons.mp hx with rfl | hx'
        · exact ⟨[], rest, rfl, by simp⟩
        · obtain ⟨pre, post, hsplit, hpre⟩ := ih₄ x hx'
          refine ⟨c :: pre, post, by rw [hsplit] ; rfl, ?_⟩
          intro c' hc'
          rcases List.mem_cons.mp hc' with rfl | hc''
          · exact hne_tail x hx'
          · exact hpre c' hc''

/-- C6: deduplication keeps no two items sharing a URL, keeps items in their
input order (a sublist of the input), and every kept item is the first
occurrence of its URL in the input: everything before it has another URL. -/
theorem dedup_first_occurrence (cs : List Cand) :
    List.Pairwise (fun a b => a.url ≠ b.url) (dedup cs)
    ∧ (dedup cs).Sublist cs
    ∧ ∀ c ∈ dedup cs, ∃ pre post, cs = pre ++ c :: post ∧ ∀ c' ∈ pre, c'.url ≠ c.url := by
  obtain ⟨-, h₂, h₃, h₄⟩ := dedup_go_spec cs []
  exact ⟨h₃, h₂, h₄⟩

/-! ### Collection claims -/

/-- Membership in one feed's collected candidates: the published time is the
parsed date of some entry, and it lies within the window. -/
lemma collect_feed_mem (now : Int) (name : String) (entries : List RssEntry) (c : Cand)
    (h : c ∈ collect_feed now name entries) :
    within_window c.published now = true ∧
    ∃ e ∈ entries, parse_date e = some c.published := by
  obtain ⟨e, he, heq⟩ := List.mem_filterMap.mp h
  cases hp : parse_date e with
  | none =>
    rw [hp] at heq
    simp at heq
  | some published =>
    rw [hp] at heq
    simp only at heq
    split_ifs at heq with hw
    obtain rfl : _ = c := Option.some.inj heq
    exact ⟨hw, e, he, hp⟩

lemma collect_rss_items_mem : ∀ (now : Int) (feeds : List (String × List RssEntry))
    (acc : List Cand) (c : Cand),
    c ∈ feeds.foldl (fun acc f => acc ++ collect_feed now f.1 f.2) acc →
    c ∈ acc ∨ ∃ f ∈ feeds, c ∈ collect_feed now f.1 f.2 := by
  intro now feeds
  induction feeds with
  | nil => exact fun acc c h => Or.inl h
  | cons f fs ih =>
    intro acc c h
    rcases ih _ c h with h' | ⟨g, hg, hcg⟩
    · rcases List.mem_append.mp h' with h'' | h''
      · exact Or.inl h''
      · exact Or.inr ⟨f, List.mem_cons_self _ _, h''⟩
    · exact Or.inr ⟨g, List.mem_cons_of_mem _ hg, hcg⟩

/-- C9: every collected candidate — from RSS feeds or the Tavily search —
carries a successfully parsed publication time within `WINDOW_HOURS` of
`now`; entries with a missing or unparseable date produce no candidate at
all, and are never assigned the current time. -/
theorem collection_window :
    (∀ (now : Int) (feeds : List (String × List RssEntry)) (c : Cand),
      c ∈ collect_rss_items now feeds →
      within_window c.published now = true ∧
      ∃ f ∈ feeds, ∃ e ∈ f.2, parse_date e = some c.published)
    ∧ (∀ (now : Int) (name : String) (entries : List RssEntry),
      (∀ e ∈ entries, parse_date e = none) → collect_feed now name entries = [])
    ∧ (∀ (now : Int) (iso : String → Option Int) (rs : List TavilyResult) (c : Cand),
      c ∈ tavily_filter now iso rs →
      within_window c.published now = true ∧
      ∃ r ∈ rs, ∃ raw, r.published_date = some raw ∧ iso raw = some c.published)
    ∧ (∀ (now : Int) (iso : String → Option Int) (rs : List TavilyResult),
      (∀ r ∈ rs, r.published_date = none) → tavily_filter now iso rs = []) := by
  refine ⟨?_, ?_, ?_, ?_⟩
  · intro now feeds c h
    rcases collect_rss_items_mem now feeds [] c h with h' | ⟨f, hf, hcf⟩
    · simp at h'
    · obtain ⟨hw, e, he, hp⟩ := collect_feed_mem now f.1 f.2 c hcf
      exact ⟨hw, f, hf, e, he, hp⟩
  · intro now name entries h
    rw [collect_feed, List.filterMap_eq_nil_iff]
    intro e he
    rw [h e he]
  · intro now iso rs c h
    obtain ⟨r, hr, heq⟩ := List.mem_filterMap.mp h
    cases hpd : r.published_date with
    | none =>
      rw [hpd] at heq
      simp at heq
    | some raw =>
      rw [hpd] at heq
      simp only at heq
      split_ifs at heq with hraw
      cases hiso : iso raw with
      | none =>
        rw [hiso] at heq
        simp at heq
      | some published =>
        rw [hiso] at heq
        simp only at heq
        split_ifs at heq with hw
        obtain rfl : _ = c := Option.some.inj heq
        exact ⟨hw, r, hr, raw, hpd, hiso⟩
  · intro now iso rs h
    rw [tavily_filter, List.filterMap_eq_nil_iff]
    intro r hr
    rw [h r hr]

end Briefing
